import Mathlib

/-!
Verification development for the WorkSentry indexing and retrieval subsystem
(`src-tauri/src/services/tantivy_engine.rs`, `file_watcher.rs`,
`browser_extractor.rs`).

The development is a shallow embedding of the Rust code:

* tantivy documents are lists of `(field, value)` pairs, in the order the
  Rust code calls `add_text` / `add_u64` / `add_i64`;
* an index is the list of live documents; a writer is a list of
  `delete_term` / `add_document` operations applied in order at commit;
* the filesystem is passed in explicitly (`FsEntry`, `FolderView`, `FsView`)
  instead of performing I/O;
* the parts of tantivy itself that the code calls (BM25 search, boolean
  query evaluation) and the jieba segmenter are parameters (`Backends`),
  since they are external library code, not code of this repository;
* `f32` score arithmetic is modelled exactly: the launcher score is carried
  as a rational number together with the byte length of the file name, and
  its real value is `base + 100 / sqrt bytes` (`scoreValue`).  Character
  classification (`is_alphanumeric`, `is_whitespace`, `to_lowercase`) is
  modelled by Lean's ASCII versions, which agree with Rust's Unicode
  versions on all ASCII inputs used below.
-/

namespace WorkSentry

/-! ### Rust string primitives -/

/-- Models Rust `char::is_alphanumeric` (agrees on ASCII, which is all the
development below depends on). -/
def rustIsAlphanumeric (c : Char) : Bool := c.isAlphanum

/-- Models Rust `str::to_lowercase` character-wise (agrees on ASCII). -/
def rustToLower (s : String) : String := String.mk (s.toList.map Char.toLower)

/-- Models Rust `str::trim` at the character-list level: drop leading and
trailing whitespace. -/
def rustTrim (l : List Char) : List Char :=
  ((l.dropWhile Char.isWhitespace).reverse.dropWhile Char.isWhitespace).reverse

/-- Models Rust `str::trim` on strings. -/
def rustTrimStr (s : String) : String := String.mk (rustTrim s.toList)

/-- Models Rust `str::split_whitespace`: maximal runs of non-whitespace
characters, in order, with no empty chunks. -/
def splitWhitespaceL (l : List Char) : List (List Char) :=
  (l.splitOnP Char.isWhitespace).filter fun w => !w.isEmpty

/-- Models Rust `str::contains` (substring test) on character lists. -/
def strContainsSub (fc p : List Char) : Bool :=
  fc.tails.any fun t => p.isPrefixOf t

/-! ### Schema and documents (`TantivyEngine::new_with_path`) -/

/-- The eight fields of the schema, in declaration order. -/
inductive FieldId
  | path
  | file_name
  | content
  | extension
  | size
  | modified_time
  | url
  | record_type
deriving DecidableEq, Repr

/-- A stored field value (`add_text` / `add_u64` / `add_i64`). -/
inductive FieldValue
  | text (s : String)
  | u64 (n : Nat)
  | i64 (n : Int)
deriving DecidableEq, Repr

/-- A tantivy document: the `(field, value)` pairs in insertion order. -/
abbrev Doc := List (FieldId × FieldValue)

/-- An index: the list of live documents. -/
abbrev Index := List Doc

/-- The document contains the exact term `(f, text v)` (what
`Term::from_field_text` addresses). -/
abbrev hasTerm (d : Doc) (f : FieldId) (v : String) : Prop :=
  (f, FieldValue.text v) ∈ d

/-- The live documents of `idx` carrying the key term `v` on the path field. -/
def docsWith (idx : Index) (v : String) : Index :=
  idx.filter fun d => decide (hasTerm d FieldId.path v)

/-! ### Writer operations -/

/-- One writer call: `delete_term` or `add_document`. -/
inductive WriterOp
  | deleteTerm (f : FieldId) (v : String)
  | addDoc (d : Doc)
deriving DecidableEq

/-- Effect of one writer operation on the set of live documents:
`delete_term` removes every document containing the term, `add_document`
appends. -/
def applyOp (idx : Index) : WriterOp → Index
  | WriterOp.deleteTerm f v => idx.filter fun d => !decide (hasTerm d f v)
  | WriterOp.addDoc d => idx ++ [d]

/-- Effect of a committed writer: its operations applied in order. -/
def applyOps (idx : Index) (ops : List WriterOp) : Index :=
  ops.foldl applyOp idx

/-! ### Extension classification -/

/-- `TantivyEngine::is_text_indexable`. -/
def is_text_indexable (ext : String) : Bool :=
  ["txt", "md", "json", "rs", "py", "js", "ts", "tsx", "jsx",
   "html", "css", "xml", "yaml", "yml", "toml", "ini", "conf",
   "log", "csv", "sh", "bat", "ps1", "c", "cpp", "h", "hpp",
   "java", "go", "rb", "php", "vue", "svelte", "sql", "r",
   "scala", "kt", "swift", "dart", "lua", "pl", "pm"].contains (rustToLower ext)

/-- `TantivyEngine::is_filename_only_indexable`. -/
def is_filename_only_indexable (ext : String) : Bool :=
  ["pdf", "doc", "docx", "xls", "xlsx", "ppt", "pptx", "odt", "ods", "odp",
   "epub", "mobi", "azw", "azw3", "fb2", "djvu",
   "jpg", "jpeg", "png", "gif", "bmp", "svg", "webp", "ico", "tiff",
   "mp3", "wav", "flac", "ogg", "mp4", "mkv", "avi", "mov", "wmv",
   "zip", "rar", "7z", "tar", "gz", "bz2",
   "exe", "msi", "dmg", "app", "apk",
   "iso", "torrent"].contains (rustToLower ext)

/-- `TantivyEngine::is_indexable_ext`. -/
def is_indexable_ext (ext : String) : Bool :=
  is_text_indexable ext || is_filename_only_indexable ext

/-! ### Files as seen by the indexer -/

/-- What the filesystem reports about one walk entry: path string, file
name, `path.extension()`, whether it is a regular file, `get_file_mtime`,
metadata size, and the result of `fs::read_to_string` (`none` = read
error). -/
structure FsEntry where
  path : String
  fname : String
  ext : Option String
  isFile : Bool
  mtime : Option Int
  size : Nat
  readOk : Option String
deriving DecidableEq

/-- `TantivyEngine::read_file_content`: files over 1 MiB yield `Ok("")`,
otherwise the raw read result. -/
def read_file_content (e : FsEntry) : Option String :=
  if 1048576 < e.size then some "" else e.readOk

/-- The `content` value stored by `index_single_file`: file contents for
text-indexable extensions (empty on read error), the file name otherwise. -/
def fileContent (e : FsEntry) : String :=
  if is_text_indexable (rustToLower (e.ext.getD "")) then
    (read_file_content e).getD ""
  else
    e.fname

/-- The document built by `index_single_file`, fields in `add_*` order.
Note that no `record_type` value is added. -/
def fileDoc (e : FsEntry) : Doc :=
  [(FieldId.path, FieldValue.text e.path),
   (FieldId.file_name, FieldValue.text e.fname),
   (FieldId.content, FieldValue.text (fileContent e)),
   (FieldId.extension, FieldValue.text (rustToLower (e.ext.getD ""))),
   (FieldId.size, FieldValue.u64 e.size),
   (FieldId.modified_time, FieldValue.i64 (e.mtime.getD 0))]

/-- Writer operations of `index_single_file`: delete the path term, then
add the fresh document. -/
def index_single_file_ops (e : FsEntry) : List WriterOp :=
  [WriterOp.deleteTerm FieldId.path e.path, WriterOp.addDoc (fileDoc e)]

/-- Writer operations of the public `index_file`: nothing unless the path
is an existing regular file with a recognized extension. -/
def index_file_ops (e : FsEntry) : List WriterOp :=
  if e.isFile then
    match e.ext with
    | some x => if is_indexable_ext x then index_single_file_ops e else []
    | none => []
  else []

/-- The first stored `modified_time` value of a document, read as `i64`
(the field-value scan in `get_indexed_mtime`). -/
def docMtime (d : Doc) : Option Int :=
  d.findSome? fun pr =>
    match pr with
    | (FieldId.modified_time, FieldValue.i64 n) => some n
    | _ => none

/-- `TantivyEngine::get_indexed_mtime`: the stored mtime of the (first)
live document whose path term is `p`. -/
def get_indexed_mtime (idx : Index) (p : String) : Option Int :=
  match idx.find? (fun d => decide (hasTerm d FieldId.path p)) with
  | some d => docMtime d
  | none => none

/-- The incremental-indexing test of `index_folder_with_writer`: re-index
iff the file mtime is strictly newer than the indexed one, or the state is
unknown. -/
def needs_update (idx : Index) (e : FsEntry) : Bool :=
  match e.mtime, get_indexed_mtime idx e.path with
  | some f, some i => decide (i < f)
  | some _, none => true
  | _, _ => true

/-- The walk entry is a regular file with a recognized extension. -/
def entryEligible (e : FsEntry) : Bool :=
  e.isFile &&
    match e.ext with
    | some x => is_indexable_ext x
    | none => false

/-- The writer operations contributed by one walk entry, against the
committed snapshot `idxS` (readers during the walk see the pre-commit
state). -/
def blockFor (idxS : Index) (e : FsEntry) : List WriterOp :=
  if entryEligible e && needs_update idxS e then index_single_file_ops e else []

/-- Writer operations of `index_folder_with_writer` over a walk. -/
def index_folder_ops (idxS : Index) (walk : List FsEntry) : List WriterOp :=
  walk.flatMap (blockFor idxS)

/-- One committed run of `index_folder` over a walk. -/
def index_folder_run (idx : Index) (walk : List FsEntry) : Index :=
  applyOps idx (index_folder_ops idx walk)

/-- What the filesystem reports about the folder argument of
`index_folder`: existence, directory-ness, and the recursive walk. -/
structure FolderView where
  pathExists : Bool
  pathIsDir : Bool
  walk : List FsEntry

/-- `TantivyEngine::index_folder`: missing or non-directory paths return
`Ok(())` before any writer is created; otherwise the walk is indexed and
committed. -/
def index_folder (v : FolderView) (idx : Index) : Except String Index :=
  if v.pathExists && v.pathIsDir then
    Except.ok (index_folder_run idx v.walk)
  else
    Except.ok idx

/-! ### Browser ingestion (`index_browser_data`) -/

/-- `browser_extractor::BrowserData`. -/
structure BrowserData where
  url : String
  title : String
  source : String
  data_type : String
deriving DecidableEq

/-- The document built for one browser record, fields in `add_*` order. -/
def browserDoc (it : BrowserData) : Doc :=
  [(FieldId.path, FieldValue.text it.url),
   (FieldId.file_name, FieldValue.text it.title),
   (FieldId.content, FieldValue.text it.url),
   (FieldId.extension, FieldValue.text it.source),
   (FieldId.record_type, FieldValue.text it.data_type),
   (FieldId.url, FieldValue.text it.url),
   (FieldId.size, FieldValue.u64 0),
   (FieldId.modified_time, FieldValue.i64 0)]

/-- Writer operations of `index_browser_data`: per record, delete the URL
term on the path field, then add. -/
def index_browser_ops (items : List BrowserData) : List WriterOp :=
  items.flatMap fun it =>
    [WriterOp.deleteTerm FieldId.path it.url, WriterOp.addDoc (browserDoc it)]

/-! ### Tokenizer (`tokenize_query`, `contains_chinese`) -/

/-- `TantivyEngine::contains_chinese`: any code point in the CJK Unified,
Ext-A or Ext-B ranges. -/
def contains_chinese (q : String) : Bool :=
  q.toList.any fun c =>
    decide ((0x4E00 ≤ c.toNat ∧ c.toNat ≤ 0x9FFF) ∨
      (0x3400 ≤ c.toNat ∧ c.toNat ≤ 0x4DBF) ∨
      (0x20000 ≤ c.toNat ∧ c.toNat ≤ 0x2A6DF))

/-- The per-character filter of the non-CJK branch: alphanumeric or one of
underscore and hyphen. -/
def keepChar (c : Char) : Bool := rustIsAlphanumeric c || c == '_' || c == '-'

/-- `TantivyEngine::tokenize_query`.  The jieba segmenter (an external
dictionary-based library) is a parameter; the non-CJK branch splits on
whitespace, keeps only `keepChar` characters per token and drops tokens
that become empty. -/
def tokenize_query (jieba : String → List String) (q : String) : List String :=
  if contains_chinese q then
    (jieba q).filterMap fun w =>
      let t := rustTrimStr w
      if t.isEmpty then none else some t
  else
    (splitWhitespaceL q.toList).filterMap fun w =>
      let cleaned := w.filter keepChar
      if cleaned.isEmpty then none else some (String.mk cleaned)

/-- Written from the spec's words, for comparison with `tokenize_query`:
split on whitespace, keep per token only the characters matching
alphanumeric, underscore or hyphen, drop empty tokens, preserve order. -/
def tokenizeSpecNonCjk (q : String) : List String :=
  (((splitWhitespaceL q.toList).map fun w => w.filter keepChar).filter
    fun w => !w.isEmpty).map String.mk

/-! ### Launcher scorer (`calculate_launcher_score`)

The score is carried exactly: the rational part accumulates every bonus
except the length bonus `100 / sqrt(byte length)`, which is irrational and
is re-attached by `scoreValue`.  For an empty file name the Rust code skips
the length bonus; `scoreValue` agrees because `100 / sqrt 0 = 0` in Lean. -/

/-- Indexing into the file or part characters.  Every access in the loop is
guarded by the loop condition, so the default is never observable. -/
def charAt (l : List Char) (i : Nat) : Char := l.getD i ' '

/-- The mutable state of the per-part scanning loop of
`calculate_launcher_score`: `search_pos`, `part_idx`, `part_start_pos`,
`current_consecutive`, `max_consecutive`, and the number of word-boundary
hits (the loop adds `10.0` to the score per hit; the count is kept here so
the state stays discrete, and `scorePart` adds `10 * nb`, which is the same
exact sum). -/
structure PartState where
  pos : Nat
  idx : Nat
  startPos : Option Nat
  cur : Nat
  maxc : Nat
  nb : Nat
deriving DecidableEq, Repr

/-- One iteration of the scanning loop body: on a character match record
the start position, the word-boundary hit and the consecutiveness run and
advance `part_idx`; in both cases advance `search_pos`. -/
def partStep (fc pc : List Char) (s : PartState) : PartState :=
  let s1 : PartState :=
    if charAt fc s.pos = charAt pc s.idx then
      let newCur : Nat :=
        if 0 < s.pos ∧ 0 < s.idx ∧
            charAt fc (s.pos - 1) = charAt pc (s.idx - 1) then
          s.cur + 1
        else 0
      { pos := s.pos,
        idx := s.idx + 1,
        startPos := if s.startPos.isNone then some s.pos else s.startPos,
        cur := newCur,
        maxc := max s.maxc newCur,
        nb := if s.pos = 0 ∨ rustIsAlphanumeric (charAt fc (s.pos - 1)) = false
          then s.nb + 1 else s.nb }
    else s
  { s1 with pos := s.pos + 1 }

/-- The `while search_pos < file_chars.len() && part_idx < part_chars.len()`
loop, with explicit fuel (the loop advances `search_pos` every iteration,
so `fc.length` steps always suffice from any start position). -/
def partLoop (fc pc : List Char) : Nat → PartState → PartState
  | 0, s => s
  | Nat.succ fuel, s =>
    if s.pos < fc.length ∧ s.idx < pc.length then
      partLoop fc pc fuel (partStep fc pc s)
    else s

/-- One iteration of the `for part in query_parts` loop: empty parts are
skipped; a part whose characters are not all consumed yields `none`; else
the boundary, earliness and consecutiveness bonuses are added and the
shared cursor advances. -/
def scorePart (fc : List Char) (pos0 : Nat) (total : ℚ) (part : List Char) :
    Option (Nat × ℚ) :=
  if part.isEmpty then some (pos0, total)
  else
    let s := partLoop fc part fc.length
      { pos := pos0, idx := 0, startPos := none, cur := 0, maxc := 0, nb := 0 }
    if s.idx < part.length then none
    else
      let posBonus : ℚ :=
        match s.startPos with
        | some p => 10 * (((fc.length : ℚ) - (p : ℚ)) / (fc.length : ℚ))
        | none => 0
      some (s.pos, total + (s.nb : ℚ) * 10 + posBonus + (s.maxc : ℚ) * 2)

/-- The whole `for part in query_parts` loop, threading the shared forward
cursor and the accumulated score. -/
def partsLoop (fc : List Char) : List (List Char) → Nat → ℚ → Option (Nat × ℚ)
  | [], pos, total => some (pos, total)
  | p :: rest, pos, total =>
    match scorePart fc pos total p with
    | none => none
    | some (pos2, total2) => partsLoop fc rest pos2 total2

/-- The single-part whole-query bonus: `+1000` for a prefix, else `+500`
for a substring. -/
def wholeQueryBonus (parts : List (List Char)) (fc : List Char) : ℚ :=
  match parts with
  | [p] =>
    if p.isPrefixOf fc then 1000
    else if strContainsSub fc p then 500 else 0
  | _ => 0

/-- The final component after the last slash (Unix `Path` component
semantics; indexed file names contain no slash). -/
def lastComponent (l : List Char) : List Char :=
  (l.splitOnP fun c => c == '/').getLastD []

/-- Models Rust `Path::new(file_name).extension()`: the part after the last
dot of the final component, none when there is no dot or the dot is the
leading character. -/
def rustExtension (name : List Char) : Option (List Char) :=
  let rev := (lastComponent name).reverse
  let afterRev := rev.takeWhile fun c => c ≠ '.'
  if afterRev.length = rev.length then none
  else if afterRev.length + 1 = rev.length then none
  else some afterRev.reverse

/-- The extension-priority bonus at the end of
`calculate_launcher_score`. -/
def extBonus (name : List Char) : ℚ :=
  match rustExtension name with
  | none => 0
  | some e =>
    let el := String.mk (e.map Char.toLower)
    if el = "exe" ∨ el = "lnk" ∨ el = "app" ∨ el = "bat" ∨ el = "cmd" then 500
    else if el = "pdf" ∨ el = "docx" ∨ el = "epub" ∨ el = "md" ∨ el = "txt" then 0
    else if el = "rs" ∨ el = "json" ∨ el = "dll" ∨ el = "xml" ∨ el = "sys" ∨
        el = "ts" ∨ el = "js" ∨ el = "css" ∨ el = "html" then -50
    else 0

/-- `TantivyEngine::calculate_launcher_score`.  The result is the exact
rational part of the score paired with the byte length of the file name;
the real score is recovered by `scoreValue`. -/
def calculate_launcher_score (query_parts : List String) (file_name : String) :
    Option (ℚ × Nat) :=
  let fc := file_name.toList
  if query_parts.isEmpty then none
  else
    let t0 := wholeQueryBonus (query_parts.map String.toList) fc
    match partsLoop fc (query_parts.map String.toList) 0 t0 with
    | none => none
    | some (_, total) => some (total + extBonus fc, file_name.utf8ByteSize)

/-- The real value of a launcher score: rational part plus the length bonus
`100 / sqrt(byte length)` (zero for an empty name, matching the skipped
bonus). -/
noncomputable def scoreValue (r : ℚ × Nat) : ℝ :=
  (r.1 : ℝ) + 100 / Real.sqrt (r.2 : ℝ)

/-- Clean restatement of the matching discipline: consume one part as a
subsequence of the remaining file characters, returning what is left of the
file after the last consumed character. -/
def subseqStep : List Char → List Char → Option (List Char)
  | [], rem => some rem
  | _ :: _, [] => none
  | p :: ps, c :: rem =>
    if c = p then subseqStep ps rem else subseqStep (p :: ps) rem

/-- Clean restatement of the whole match: the parts are matched in input
order through one shared forward cursor that never rewinds. -/
def seqMatch : List (List Char) → List Char → Bool
  | [], _ => true
  | p :: ps, rem =>
    match subseqStep p rem with
    | none => false
    | some rem2 => seqMatch ps rem2

/-! ### The three search modes -/

/-- `commands::SearchResult`, with the launcher score representation. -/
structure SearchResult where
  path : String
  file_name : String
  score : ℚ × Nat
  record_type : String
deriving DecidableEq

/-- One enhanced-search subquery with `Occur::Should`. -/
inductive SubQuery
  | fuzzyTerm (f : FieldId) (term : String) (dist : Nat) (transpose : Bool)
  | exactTerm (f : FieldId) (term : String)
deriving DecidableEq

/-- The subquery list built by `search_enhanced`: per token and per field
(content then file name), a fuzzy query for byte length at least 3 (edit
distance 1 up to 4 bytes, else 2), a term query when prefix mode is on and
the byte length is at least 2, and always an exact term query. -/
def build_subqueries (tokens : List String) (fuzzy pfx : Bool) : List SubQuery :=
  tokens.flatMap fun token =>
    let tl := rustToLower token
    [FieldId.content, FieldId.file_name].flatMap fun f =>
      (if fuzzy ∧ 3 ≤ token.utf8ByteSize then
        [SubQuery.fuzzyTerm f tl (if token.utf8ByteSize ≤ 4 then 1 else 2) true]
      else []) ++
      (if pfx ∧ 2 ≤ token.utf8ByteSize then [SubQuery.exactTerm f tl] else []) ++
      [SubQuery.exactTerm f tl]

/-- The external ingredients of the three search modes: tantivy's parsed
exact search and boolean-query search, the jieba segmenter, the stored
documents walked by the launcher, and the launcher's sort-and-truncate on
`f32` scores. -/
structure Backends where
  exactSearch : String → Nat → Except String (List SearchResult)
  boolSearch : List SubQuery → Nat → Except String (List SearchResult)
  jieba : String → List String
  docs : List Doc
  sortTrunc : List SearchResult → Nat → List SearchResult

/-- `TantivyEngine::search` (exact mode): empty-after-trim queries return
`Ok(vec![])` before touching the index; otherwise the parsed query runs. -/
def search (bk : Backends) (q : String) (limit : Nat) :
    Except String (List SearchResult) :=
  if (rustTrim q.toList).isEmpty then Except.ok [] else bk.exactSearch q limit

/-- `TantivyEngine::search_enhanced`: trim guard, tokenize, empty-token
early return, subquery construction, dead fallback to exact mode, boolean
search. -/
def search_enhanced (bk : Backends) (q : String) (limit : Nat) (fuzzy pfx : Bool) :
    Except String (List SearchResult) :=
  if (rustTrim q.toList).isEmpty then Except.ok []
  else
    let tokens := tokenize_query bk.jieba q
    if tokens.isEmpty then Except.ok []
    else
      let subs := build_subqueries tokens fuzzy pfx
      if subs.isEmpty then search bk q limit
      else bk.boolSearch subs limit

/-- The stored-field read-back loop shared by the search modes: iterate the
field values, overwriting `path`, `file_name` and `record_type` as string
values appear; `record_type` defaults to "file". -/
structure Extracted where
  path : String
  file_name : String
  record_type : String
deriving DecidableEq

/-- The field-value scan of one stored document. -/
def extract_stored (d : Doc) : Extracted :=
  d.foldl
    (fun acc pr =>
      match pr with
      | (FieldId.path, FieldValue.text t) => { acc with path := t }
      | (FieldId.file_name, FieldValue.text t) => { acc with file_name := t }
      | (FieldId.record_type, FieldValue.text t) => { acc with record_type := t }
      | _ => acc)
    { path := "", file_name := "", record_type := "file" }

/-- `TantivyEngine::search_launcher`: trim guard, lowercase and split the
query, walk every stored document, score non-empty file names, sort by
score and truncate. -/
def search_launcher (bk : Backends) (q : String) (limit : Nat) :
    Except String (List SearchResult) :=
  if (rustTrim q.toList).isEmpty then Except.ok []
  else
    let qparts := (splitWhitespaceL (rustToLower q).toList).map String.mk
    let results := bk.docs.filterMap fun d =>
      let ex := extract_stored d
      if ex.file_name.isEmpty then none
      else
        match calculate_launcher_score qparts (rustToLower ex.file_name) with
        | some sc =>
          some { path := ex.path, file_name := ex.file_name, score := sc,
                 record_type := ex.record_type }
        | none => none
    Except.ok (bk.sortTrunc results limit)

/-! ### Watcher dispatch (`FileWatcherManager::process_file_event`) -/

/-- The debounced event kinds. -/
inductive FileEventType
  | created
  | modified
  | deleted
deriving DecidableEq

/-- Existence and regular-file checks at dispatch time. -/
structure FsView where
  pathExists : String → Bool
  pathIsFile : String → Bool

/-- `process_file_event`: Created/Modified re-index the path only when it
still exists as a regular file (otherwise the event is dropped); Deleted
always deletes the path term.  `reindex` abstracts
`tantivy_engine::index_single_file`. -/
def process_file_event (fs : FsView) (reindex : String → Index → Index)
    (idx : Index) (p : String) (et : FileEventType) : Index :=
  match et with
  | FileEventType.created | FileEventType.modified =>
    if fs.pathExists p && fs.pathIsFile p then reindex p idx else idx
  | FileEventType.deleted =>
    applyOps idx [WriterOp.deleteTerm FieldId.path p]

/-! ### Basic lemmas -/

theorem rustTrim_eq_nil_of_all_ws (l : List Char)
    (h : l.all Char.isWhitespace = true) : rustTrim l = [] := by
  have h1 : l.dropWhile Char.isWhitespace = [] := by
    rw [List.dropWhile_eq_nil_iff]
    intro x hx
    exact List.all_eq_true.1 h x hx
  simp [rustTrim, h1]

/-- Concrete backends returning nothing, used to instantiate theorems. -/
def trivialBackends : Backends where
  exactSearch := fun _ _ => Except.ok []
  boolSearch := fun _ _ => Except.ok []
  jieba := fun _ => []
  docs := []
  sortTrunc := fun rs _ => rs

/-- One arbitrary concrete search result. -/
def oneResult : SearchResult :=
  { path := "p", file_name := "n", score := (0, 0), record_type := "file" }

/-- Concrete backends whose exact search returns one hit, used to separate
the enhanced mode's empty return from the exact mode's result. -/
def hitBackends : Backends where
  exactSearch := fun _ _ => Except.ok [oneResult]
  boolSearch := fun _ _ => Except.ok [oneResult]
  jieba := fun _ => []
  docs := []
  sortTrunc := fun rs _ => rs

/-! ### C8: empty or whitespace-only queries -/

/-- C8.  For every query that is empty or consists only of whitespace and
every limit, each of the three search modes (exact, enhanced, launcher)
returns an empty result list without error. -/
theorem empty_query_empty_results :
    ∀ (bk : Backends) (q : String) (limit : Nat) (fuzzy pfx : Bool),
      q.toList.all Char.isWhitespace = true →
        search bk q limit = Except.ok [] ∧
        search_enhanced bk q limit fuzzy pfx = Except.ok [] ∧
        search_launcher bk q limit = Except.ok [] := by
  intro bk q limit fuzzy pfx h
  have ht : rustTrim q.data = [] := rustTrim_eq_nil_of_all_ws q.data h
  refine ⟨?_, ?_, ?_⟩ <;> simp [search, search_enhanced, search_launcher, ht]

/-- C8 witness: the three modes on the one-space query. -/
theorem empty_query_empty_results_witness :
    " ".toList.all Char.isWhitespace = true ∧
      (search trivialBackends " " 7 = Except.ok [] ∧
        search_enhanced trivialBackends " " 7 true false = Except.ok [] ∧
        search_launcher trivialBackends " " 7 = Except.ok []) :=
  ⟨by decide, empty_query_empty_results trivialBackends " " 7 true false (by decide)⟩

/-! ### C10: `index_folder` on a missing or non-directory path -/

/-- C10.  For every path that does not exist or is not a directory,
`index_folder` returns `Ok` and leaves the index unchanged: the guard
returns before a writer is even created. -/
theorem index_folder_missing_path_ok :
    ∀ (v : FolderView) (idx : Index),
      v.pathExists = false ∨ v.pathIsDir = false →
        index_folder v idx = Except.ok idx := by
  intro v idx h
  rcases h with h | h <;> simp [index_folder, h]

/-- C10 witness: a missing folder with a one-document index. -/
theorem index_folder_missing_path_ok_witness :
    ((⟨false, true, []⟩ : FolderView).pathExists = false ∨
      (⟨false, true, []⟩ : FolderView).pathIsDir = false) ∧
      index_folder ⟨false, true, []⟩ [[(FieldId.path, FieldValue.text "p")]]
        = Except.ok [[(FieldId.path, FieldValue.text "p")]] :=
  ⟨Or.inl rfl,
    index_folder_missing_path_ok ⟨false, true, []⟩
      [[(FieldId.path, FieldValue.text "p")]] (Or.inl rfl)⟩

/-! ### C5: watcher Upsert dispatch for a vanished path -/

/-- C5 counterexample.  Dispatching a debounced Created event for a path
that no longer exists leaves the index untouched: the path's document stays
live, so the event is not treated as a Delete. -/
theorem watcher_upsert_missing_cex :
    process_file_event ⟨fun _ => false, fun _ => false⟩ (fun _ i => i)
        [[(FieldId.path, FieldValue.text "/w/a.txt")]] "/w/a.txt"
        FileEventType.created
      = [[(FieldId.path, FieldValue.text "/w/a.txt")]] ∧
    docsWith [[(FieldId.path, FieldValue.text "/w/a.txt")]] "/w/a.txt" ≠ [] :=
  ⟨rfl, by decide⟩

/-- C5 amended.  When a debounced Upsert event (Created or Modified) is
dispatched for a path that no longer exists, the watcher drops the event:
no re-index and no delete happens and the index is unchanged. -/
theorem watcher_upsert_missing_noop :
    ∀ (fs : FsView) (reindex : String → Index → Index) (idx : Index)
      (p : String) (et : FileEventType),
      et = FileEventType.created ∨ et = FileEventType.modified →
      fs.pathExists p = false →
        process_file_event fs reindex idx p et = idx := by
  intro fs reindex idx p et het hex
  rcases het with het | het <;> subst het <;> simp [process_file_event, hex]

/-- C5 amended witness: a concrete dropped Modified event. -/
theorem watcher_upsert_missing_noop_witness :
    ((FileEventType.modified = FileEventType.created ∨
        FileEventType.modified = FileEventType.modified) ∧
      (⟨fun _ => false, fun _ => true⟩ : FsView).pathExists "/w/b.md" = false) ∧
      process_file_event ⟨fun _ => false, fun _ => true⟩ (fun _ i => i) []
        "/w/b.md" FileEventType.modified = [] :=
  ⟨⟨Or.inr rfl, rfl⟩,
    watcher_upsert_missing_noop ⟨fun _ => false, fun _ => true⟩ (fun _ i => i)
      [] "/w/b.md" FileEventType.modified (Or.inr rfl) rfl⟩

/-! ### C9: non-CJK tokenization -/

theorem filterMap_clean_eq (f : List Char → List Char)
    (g : List Char → String) :
    ∀ l : List (List Char),
      (l.filterMap fun w =>
        let c := f w
        if c.isEmpty then none else some (g c)) =
      (((l.map f).filter fun w => !w.isEmpty).map g) := by
  intro l
  induction l with
  | nil => rfl
  | cons w rest ih =>
    simp only [List.filterMap_cons, List.map_cons, List.filter_cons]
    cases hc : (f w).isEmpty with
    | true =>
      simp only [hc, Bool.not_true, Bool.false_eq_true, if_false, ite_false]
      exact ih
    | false =>
      simp only [hc, Bool.not_false, if_true, ite_true, Bool.false_eq_true,
        if_false, ite_false]
      rw [ih, List.map_cons]

/-- C9.  For non-CJK queries, `tokenize_query` splits on whitespace, keeps
per token only alphanumeric characters plus underscore and hyphen, drops
empty tokens and preserves order (`tokenizeSpecNonCjk` is that procedure
written from the spec); in particular the query "hello world" tokenizes to
its two words and the empty query to nothing. -/
theorem tokenize_non_cjk :
    ∀ (jieba : String → List String) (q : String),
      (contains_chinese q = false →
        tokenize_query jieba q = tokenizeSpecNonCjk q) ∧
      tokenize_query jieba "hello world" = ["hello", "world"] ∧
      tokenize_query jieba "" = [] := by
  intro jieba q
  have key : ∀ r : String, contains_chinese r = false →
      tokenize_query jieba r = tokenizeSpecNonCjk r := by
    intro r h
    simp only [tokenize_query, h, Bool.false_eq_true, if_false,
      tokenizeSpecNonCjk]
    exact filterMap_clean_eq (fun w => w.filter keepChar) String.mk _
  refine ⟨key q, ?_, ?_⟩
  · rw [key "hello world" (by decide)]; decide
  · rw [key "" (by decide)]; decide

/-- C9 witness: the non-CJK branch at a concrete query. -/
theorem tokenize_non_cjk_witness :
    contains_chinese "ab-c 7_x" = false ∧
      tokenize_query (fun _ => []) "ab-c 7_x" = tokenizeSpecNonCjk "ab-c 7_x" :=
  ⟨by decide, (tokenize_non_cjk (fun _ => []) "ab-c 7_x").1 (by decide)⟩

/-! ### C4: enhanced search when tokenization yields nothing -/

/-- C4 counterexample.  The query "!!!" is not whitespace-only and it
tokenizes to nothing; `search_enhanced` returns `Ok(vec![])` without
falling back, while exact `search` runs its backend and (with an index
containing a hit) returns a different result. -/
theorem search_enhanced_no_tokens_cex :
    (rustTrim "!!!".toList).isEmpty = false ∧
    tokenize_query hitBackends.jieba "!!!" = [] ∧
    search_enhanced hitBackends "!!!" 10 true true = Except.ok [] ∧
    search hitBackends "!!!" 10 = Except.ok [oneResult] ∧
    Except.ok ([oneResult]) ≠ (Except.ok [] : Except String (List SearchResult)) := by
  refine ⟨by decide, by decide, rfl, rfl, by simp [oneResult]⟩

/-- C4 amended.  If tokenization yields no tokens, `search_enhanced`
returns an empty `Ok` result without consulting exact search; the
subqueries-empty fallback to exact mode is dead code, because a non-empty
token list always contributes at least an exact term subquery. -/
theorem search_enhanced_no_tokens :
    (∀ (bk : Backends) (q : String) (limit : Nat) (fuzzy pfx : Bool),
      tokenize_query bk.jieba q = [] →
        search_enhanced bk q limit fuzzy pfx = Except.ok []) ∧
    (∀ (tokens : List String) (fuzzy pfx : Bool),
      tokens ≠ [] → build_subqueries tokens fuzzy pfx ≠ []) := by
  constructor
  · intro bk q limit fuzzy pfx h
    by_cases ht : (rustTrim q.toList).isEmpty <;>
      simp [search_enhanced, ht, h]
  · intro tokens fuzzy pfx h
    match tokens with
    | t :: rest =>
      simp [build_subqueries]

/-- C4 amended witness: a punctuation-only query returns empty. -/
theorem search_enhanced_no_tokens_witness :
    tokenize_query trivialBackends.jieba "!!!" = [] ∧
      search_enhanced trivialBackends "!!!" 5 false true = Except.ok [] :=
  ⟨by decide,
    search_enhanced_no_tokens.1 trivialBackends "!!!" 5 false true (by decide)⟩

/-! ### C6: the stored `record_kind` field -/

/-- C6 counterexample.  Indexing the concrete file `/w/a.txt` adds a
document that stores no `record_type` field at all, so it is false that
every added document stores a `record_kind` in the set. -/
theorem record_kind_stored_cex :
    index_file_ops ⟨"/w/a.txt", "a.txt", some "txt", true, some 5, 3, some "hi"⟩
      = [WriterOp.deleteTerm FieldId.path "/w/a.txt",
         WriterOp.addDoc
           (fileDoc ⟨"/w/a.txt", "a.txt", some "txt", true, some 5, 3, some "hi"⟩)] ∧
    ((fileDoc ⟨"/w/a.txt", "a.txt", some "txt", true, some 5, 3, some "hi"⟩).filter
      fun pr => decide (pr.1 = FieldId.record_type)) = [] := by
  exact ⟨rfl, rfl⟩

/-- C6 amended.  Documents added by browser ingestion store `record_type`
equal to the record's `data_type` (the extractor produces "History" and
"Bookmark"); documents added by file indexing store no `record_type` field,
and the stored-field read-back defaults their `record_kind` to "file". -/
theorem record_kind_stored :
    ∀ (e : FsEntry) (it : BrowserData),
      ((fileDoc e).filter fun pr => decide (pr.1 = FieldId.record_type)) = [] ∧
      (extract_stored (fileDoc e)).record_type = "file" ∧
      ((browserDoc it).filter fun pr => decide (pr.1 = FieldId.record_type))
        = [(FieldId.record_type, FieldValue.text it.data_type)] := by
  intro e it
  refine ⟨?_, ?_, ?_⟩ <;> simp [fileDoc, browserDoc, extract_stored]

/-! ### Writer-trace machinery shared by the upsert claims -/

theorem applyOps_append (idx : Index) (xs ys : List WriterOp) :
    applyOps idx (xs ++ ys) = applyOps (applyOps idx xs) ys := by
  simp [applyOps, List.foldl_append]

/-- The document's only path term (if any) is `p`. -/
def KeyOnly (d : Doc) (p : String) : Prop :=
  ∀ v, hasTerm d FieldId.path v → v = p

/-- The operation neither deletes the key `p` nor adds a document carrying
it; deletes target the path field, as every writer call in the code does. -/
def AvoidsKey (p : String) : WriterOp → Prop
  | WriterOp.deleteTerm f v => f = FieldId.path ∧ v ≠ p
  | WriterOp.addDoc d => ¬ hasTerm d FieldId.path p

theorem docsWith_append (l1 l2 : Index) (p : String) :
    docsWith (l1 ++ l2) p = docsWith l1 p ++ docsWith l2 p := by
  simp [docsWith, List.filter_append]

theorem docsWith_filter_not (idx : Index) (p v : String) (hv : v ≠ p)
    (hinv : ∀ d ∈ idx, hasTerm d FieldId.path p → KeyOnly d p) :
    docsWith (idx.filter fun d => !decide (hasTerm d FieldId.path v)) p
      = docsWith idx p := by
  unfold docsWith
  rw [List.filter_filter]
  apply List.filter_congr
  intro d hd
  by_cases hp : hasTerm d FieldId.path p
  · have hnv : ¬ hasTerm d FieldId.path v := fun hv2 => hv (hinv d hd hp v hv2)
    simp [hp, hnv]
  · simp [hp]

theorem applyOps_avoid (ops : List WriterOp) :
    ∀ (idx : Index) (p : String),
      (∀ op ∈ ops, AvoidsKey p op) →
      (∀ d ∈ idx, hasTerm d FieldId.path p → KeyOnly d p) →
      docsWith (applyOps idx ops) p = docsWith idx p := by
  induction ops with
  | nil => intro idx p _ _; rfl
  | cons op rest ih =>
    intro idx p hops hinv
    have hop := hops op (List.mem_cons_self op rest)
    have hrest : ∀ o ∈ rest, AvoidsKey p o := fun o ho =>
      hops o (List.mem_cons_of_mem _ ho)
    cases op with
    | deleteTerm f v =>
      obtain ⟨hf, hv⟩ := hop
      subst hf
      have hstep : applyOps idx (WriterOp.deleteTerm FieldId.path v :: rest)
          = applyOps (idx.filter fun d => !decide (hasTerm d FieldId.path v))
              rest := rfl
      have hinv2 : ∀ d ∈ idx.filter fun d => !decide (hasTerm d FieldId.path v),
          hasTerm d FieldId.path p → KeyOnly d p :=
        fun d hd hp => hinv d (List.mem_of_mem_filter hd) hp
      rw [hstep, ih _ p hrest hinv2, docsWith_filter_not idx p v hv hinv]
    | addDoc d =>
      have hstep : applyOps idx (WriterOp.addDoc d :: rest)
          = applyOps (idx ++ [d]) rest := rfl
      have hinv2 : ∀ d2 ∈ idx ++ [d], hasTerm d2 FieldId.path p → KeyOnly d2 p := by
        intro d2 hd2 hp
        rcases List.mem_append.1 hd2 with h | h
        · exact hinv d2 h hp
        · simp only [List.mem_singleton] at h
          subst h
          exact absurd hp hop
      have hop2 : ¬ hasTerm d FieldId.path p := hop
      rw [hstep, ih _ p hrest hinv2, docsWith_append]
      have hnil : docsWith [d] p = [] := by
        simp [docsWith, hop2]
      rw [hnil, List.append_nil]

/-- The operation pair emitted for one upsert: delete the key term on the
path field, then add the document. -/
def mkUpsert (b : String × Doc) : List WriterOp :=
  [WriterOp.deleteTerm FieldId.path b.1, WriterOp.addDoc b.2]

/-- A well-formed upsert pair: the added document carries exactly the key
being deleted as its path term. -/
def UpsertBlock (b : String × Doc) : Prop :=
  ∀ v, hasTerm b.2 FieldId.path v ↔ v = b.1

theorem docsWith_mkUpsert (idx : Index) (p : String) (d : Doc)
    (hd : hasTerm d FieldId.path p) :
    docsWith (applyOps idx (mkUpsert (p, d))) p = [d] := by
  show docsWith ((idx.filter fun x => !decide (hasTerm x FieldId.path p)) ++ [d]) p
    = [d]
  rw [docsWith_append]
  have h1 : docsWith (idx.filter fun x => !decide (hasTerm x FieldId.path p)) p
      = [] := by
    unfold docsWith
    rw [List.filter_filter]
    rw [List.filter_eq_nil_iff]
    intro x hx
    by_cases hp : hasTerm x FieldId.path p <;> simp [hp]
  have h2 : docsWith [d] p = [d] := by simp [docsWith, hd]
  rw [h1, h2, List.nil_append]

theorem hasTerm_fileDoc (e : FsEntry) (v : String) :
    hasTerm (fileDoc e) FieldId.path v ↔ v = e.path := by
  simp [fileDoc, hasTerm]

theorem hasTerm_browserDoc (it : BrowserData) (v : String) :
    hasTerm (browserDoc it) FieldId.path v ↔ v = it.url := by
  simp [browserDoc, hasTerm]

theorem upsertBlock_fileDoc (e : FsEntry) : UpsertBlock (e.path, fileDoc e) :=
  fun v => hasTerm_fileDoc e v

theorem upsertBlock_browserDoc (it : BrowserData) :
    UpsertBlock (it.url, browserDoc it) :=
  fun v => hasTerm_browserDoc it v

/-- At most one live document carries any key that some block of the list
upserts, no matter what index the operations are applied to. -/
theorem blocks_key_le_one :
    ∀ (blocks : List (String × Doc)) (idx : Index) (p : String),
      (∀ b ∈ blocks, UpsertBlock b) →
      p ∈ blocks.map Prod.fst →
      (docsWith (applyOps idx (blocks.flatMap mkUpsert)) p).length ≤ 1 := by
  intro blocks
  induction blocks with
  | nil => intro idx p _ hp; simp at hp
  | cons b rest ih =>
    intro idx p hub hp
    rw [List.flatMap_cons, applyOps_append]
    by_cases hrest : p ∈ rest.map Prod.fst
    · exact ih _ p (fun x hx => hub x (List.mem_cons_of_mem _ hx)) hrest
    · have hpb : p = b.1 := by
        rcases List.mem_map.1 hp with ⟨x, hx, hx2⟩
        rcases List.mem_cons.1 hx with h | h
        · rw [h] at hx2; exact hx2.symm
        · exact absurd (hx2 ▸ List.mem_map_of_mem Prod.fst h) hrest
      subst hpb
      have hb1 : UpsertBlock b := hub b (List.mem_cons_self b rest)
      have hset : docsWith (applyOps idx (mkUpsert b)) b.1 = [b.2] := by
        have : mkUpsert b = mkUpsert (b.1, b.2) := by rfl
        rw [this]
        exact docsWith_mkUpsert idx b.1 b.2 ((hb1 b.1).2 rfl)
      have havoid : ∀ op ∈ rest.flatMap mkUpsert, AvoidsKey b.1 op := by
        intro op hop
        rcases List.mem_flatMap.1 hop with ⟨b2, hb2, hopin⟩
        have hub2 : UpsertBlock b2 := hub b2 (List.mem_cons_of_mem _ hb2)
        have hne : b2.1 ≠ b.1 := by
          intro h
          exact hrest (h ▸ List.mem_map_of_mem Prod.fst hb2)
        rcases List.mem_cons.1 hopin with h | h
        · subst h; exact ⟨rfl, hne⟩
        · simp only [mkUpsert, List.mem_singleton] at h
          subst h
          intro hterm
          exact hne ((hub2 b.1).1 hterm).symm
      have hinv : ∀ d ∈ applyOps idx (mkUpsert b),
          hasTerm d FieldId.path b.1 → KeyOnly d b.1 := by
        intro d hd hdt
        have : d ∈ docsWith (applyOps idx (mkUpsert b)) b.1 := by
          simp [docsWith, List.mem_filter, hd, hdt]
        rw [hset] at this
        simp only [List.mem_singleton] at this
        subst this
        intro v hv
        rw [(hb1 v).1 hv]
      rw [applyOps_avoid _ _ _ havoid hinv, hset]
      simp

/-- Every add in the trace is preceded by a delete of some key the added
document carries as its path term. -/
def Disciplined (ops : List WriterOp) : Prop :=
  ∀ l1 d l2, ops = l1 ++ WriterOp.addDoc d :: l2 →
    ∃ v, WriterOp.deleteTerm FieldId.path v ∈ l1 ∧ hasTerm d FieldId.path v

theorem blocks_disciplined :
    ∀ blocks : List (String × Doc),
      (∀ b ∈ blocks, UpsertBlock b) →
      Disciplined (blocks.flatMap mkUpsert) := by
  intro blocks
  induction blocks with
  | nil =>
    intro _ l1 d l2 h
    exact absurd h.symm (List.append_ne_nil_of_right_ne_nil l1 (List.cons_ne_nil _ _))
  | cons b rest ih =>
    intro hub l1 d l2 h
    rw [List.flatMap_cons] at h
    have hb1 : UpsertBlock b := hub b (List.mem_cons_self b rest)
    match l1, h with
    | [], h => simp [mkUpsert] at h
    | [x], h =>
      simp only [mkUpsert, List.cons_append, List.nil_append, List.cons.injEq,
        WriterOp.addDoc.injEq] at h
      obtain ⟨hx, hd2, _⟩ := h
      refine ⟨b.1, ?_, ?_⟩
      · rw [hx]; exact List.mem_singleton_self _
      · rw [← hd2]
        exact (hb1 b.1).2 rfl
    | x :: y :: l1x, h =>
      simp only [mkUpsert, List.cons_append, List.cons.injEq] at h
      obtain ⟨hx, hy, hrest⟩ := h
      obtain ⟨v, hv1, hv2⟩ :=
        ih (fun b2 hb2 => hub b2 (List.mem_cons_of_mem _ hb2)) l1x d l2 hrest
      exact ⟨v, List.mem_cons_of_mem _ (List.mem_cons_of_mem _ hv1), hv2⟩

/-- The upsert pairs underlying `index_file_ops`. -/
def fileBlocks (e : FsEntry) : List (String × Doc) :=
  if e.isFile then
    match e.ext with
    | some x => if is_indexable_ext x then [(e.path, fileDoc e)] else []
    | none => []
  else []

theorem index_file_ops_eq_blocks (e : FsEntry) :
    index_file_ops e = (fileBlocks e).flatMap mkUpsert := by
  unfold index_file_ops fileBlocks
  by_cases h1 : e.isFile
  · simp only [h1, if_true]
    cases e.ext with
    | none => rfl
    | some x =>
      by_cases h2 : is_indexable_ext x <;>
        simp [h2, index_single_file_ops, mkUpsert]
  · simp [h1]

theorem fileBlocks_upsert (e : FsEntry) : ∀ b ∈ fileBlocks e, UpsertBlock b := by
  intro b hb
  unfold fileBlocks at hb
  by_cases h1 : e.isFile
  · simp only [h1, if_true] at hb
    cases hx : e.ext with
    | none => rw [hx] at hb; simp at hb
    | some x =>
      rw [hx] at hb
      by_cases h2 : is_indexable_ext x
      · simp only [h2, if_true, List.mem_singleton] at hb
        subst hb
        exact upsertBlock_fileDoc e
      · simp [h2] at hb
  · simp [h1] at hb

/-- The upsert pairs underlying `index_folder_ops`. -/
def folderBlocks (idxS : Index) (walk : List FsEntry) : List (String × Doc) :=
  walk.filterMap fun e =>
    if entryEligible e && needs_update idxS e then some (e.path, fileDoc e)
    else none

theorem index_folder_ops_eq_blocks (idxS : Index) (walk : List FsEntry) :
    index_folder_ops idxS walk = (folderBlocks idxS walk).flatMap mkUpsert := by
  induction walk with
  | nil => rfl
  | cons e rest ih =>
    simp only [index_folder_ops, folderBlocks, List.flatMap_cons,
      List.filterMap_cons] at *
    by_cases h : entryEligible e && needs_update idxS e
    · simp only [h, if_true, List.flatMap_cons]
      rw [ih]
      simp [blockFor, h, index_single_file_ops, mkUpsert]
    · simp only [h, if_false, Bool.false_eq_true]
      rw [ih]
      simp [blockFor, h]

theorem folderBlocks_upsert (idxS : Index) (walk : List FsEntry) :
    ∀ b ∈ folderBlocks idxS walk, UpsertBlock b := by
  intro b hb
  unfold folderBlocks at hb
  rcases List.mem_filterMap.1 hb with ⟨e, _, he2⟩
  by_cases h : entryEligible e && needs_update idxS e
  · rw [if_pos h] at he2
    cases he2
    exact upsertBlock_fileDoc e
  · rw [if_neg h] at he2
    cases he2

/-- The upsert pairs underlying `index_browser_ops`. -/
def browserBlocks (items : List BrowserData) : List (String × Doc) :=
  items.map fun it => (it.url, browserDoc it)

theorem index_browser_ops_eq_blocks (items : List BrowserData) :
    index_browser_ops items = (browserBlocks items).flatMap mkUpsert := by
  induction items with
  | nil => rfl
  | cons it rest ih =>
    simp only [index_browser_ops, browserBlocks, List.map_cons,
      List.flatMap_cons] at *
    rw [ih]
    rfl

theorem browserBlocks_upsert (items : List BrowserData) :
    ∀ b ∈ browserBlocks items, UpsertBlock b := by
  intro b hb
  rcases List.mem_map.1 hb with ⟨it, _, he2⟩
  subst he2
  exact upsertBlock_browserDoc it

theorem blocks_add_key_le_one (blocks : List (String × Doc))
    (hub : ∀ b ∈ blocks, UpsertBlock b) (idx : Index) (p : String) (d : Doc)
    (hmem : WriterOp.addDoc d ∈ blocks.flatMap mkUpsert)
    (hterm : hasTerm d FieldId.path p) :
    (docsWith (applyOps idx (blocks.flatMap mkUpsert)) p).length ≤ 1 := by
  apply blocks_key_le_one blocks idx p hub
  rcases List.mem_flatMap.1 hmem with ⟨b, hb, hopin⟩
  simp only [mkUpsert, List.mem_cons, List.mem_singleton, List.not_mem_nil,
    or_false] at hopin
  rcases hopin with h | h
  · exact absurd h (by simp)
  · have hd : d = b.2 := by injection h
    have hp : p = b.1 := (hub b hb p).1 (hd ▸ hterm)
    exact hp ▸ List.mem_map_of_mem Prod.fst hb

/-! ### C1: the upsert discipline -/

/-- C1.  For each of the three indexing operation kinds (single file,
folder walk, browser batch): the emitted writer trace is disciplined (every
`add_document` is preceded by a `delete_term` on the path field for a key
the added document carries), and for any key that the trace adds a
document for, at most one live document carries that key after the commit,
whatever index the trace is applied to. -/
theorem upsert_discipline :
    ∀ (e : FsEntry) (idxS : Index) (walk : List FsEntry)
      (items : List BrowserData) (idx : Index) (p : String) (d : Doc),
      (Disciplined (index_file_ops e) ∧
        Disciplined (index_folder_ops idxS walk) ∧
        Disciplined (index_browser_ops items)) ∧
      ((WriterOp.addDoc d ∈ index_file_ops e → hasTerm d FieldId.path p →
          (docsWith (applyOps idx (index_file_ops e)) p).length ≤ 1) ∧
        (WriterOp.addDoc d ∈ index_folder_ops idxS walk →
          hasTerm d FieldId.path p →
          (docsWith (applyOps idx (index_folder_ops idxS walk)) p).length ≤ 1) ∧
        (WriterOp.addDoc d ∈ index_browser_ops items →
          hasTerm d FieldId.path p →
          (docsWith (applyOps idx (index_browser_ops items)) p).length ≤ 1)) := by
  intro e idxS walk items idx p d
  rw [index_file_ops_eq_blocks, index_folder_ops_eq_blocks,
    index_browser_ops_eq_blocks]
  exact ⟨⟨blocks_disciplined _ (fileBlocks_upsert e),
      blocks_disciplined _ (folderBlocks_upsert idxS walk),
      blocks_disciplined _ (browserBlocks_upsert items)⟩,
    fun hm ht => blocks_add_key_le_one _ (fileBlocks_upsert e) idx p d hm ht,
    fun hm ht => blocks_add_key_le_one _ (folderBlocks_upsert idxS walk) idx p d hm ht,
    fun hm ht => blocks_add_key_le_one _ (browserBlocks_upsert items) idx p d hm ht⟩

/-- C1 witness: a one-record browser batch applied to the empty index. -/
theorem upsert_discipline_witness :
    (WriterOp.addDoc (browserDoc ⟨"u", "t", "s", "History"⟩)
        ∈ index_browser_ops [⟨"u", "t", "s", "History"⟩] ∧
      hasTerm (browserDoc ⟨"u", "t", "s", "History"⟩) FieldId.path "u") ∧
    (docsWith (applyOps []
        (index_browser_ops [⟨"u", "t", "s", "History"⟩])) "u").length ≤ 1 :=
  ⟨⟨List.mem_cons_of_mem _ (List.mem_cons_self _ _),
      (hasTerm_browserDoc ⟨"u", "t", "s", "History"⟩ "u").2 rfl⟩,
    (upsert_discipline ⟨"", "", none, false, none, 0, none⟩ [] [] _ [] "u"
        (browserDoc ⟨"u", "t", "s", "History"⟩)).2.2.2
      (List.mem_cons_of_mem _ (List.mem_cons_self _ _))
      ((hasTerm_browserDoc ⟨"u", "t", "s", "History"⟩ "u").2 rfl)⟩

/-! ### C7: re-indexing an unchanged folder is idempotent -/

theorem find?_eq_head?_filter {α : Type} (g : α → Bool) :
    ∀ l : List α, l.find? g = (l.filter g).head? := by
  intro l
  induction l with
  | nil => rfl
  | cons a rest ih =>
    rw [List.find?_cons, List.filter_cons]
    cases hg : g a
    · simp only [hg, Bool.false_eq_true, if_false, ite_false]
      exact ih
    · simp only [hg, if_true, ite_true, List.head?_cons]

theorem get_indexed_mtime_eq (idx : Index) (p : String) :
    get_indexed_mtime idx p = (docsWith idx p).head?.bind docMtime := by
  unfold get_indexed_mtime docsWith
  rw [find?_eq_head?_filter]
  cases (idx.filter fun d => decide (hasTerm d FieldId.path p)).head? <;> rfl

theorem docMtime_fileDoc (e : FsEntry) :
    docMtime (fileDoc e) = some (e.mtime.getD 0) := rfl

/-- Where the key of an eligible walk entry ends up after one committed
folder scan: re-indexed entries own exactly their fresh document, entries
that needed no update keep their prior documents untouched. -/
theorem folder_ops_docsWith :
    ∀ (walk : List FsEntry) (idxS idx : Index) (e : FsEntry),
      (walk.map FsEntry.path).Nodup →
      (∀ d ∈ idx, ∀ v u, hasTerm d FieldId.path v → hasTerm d FieldId.path u →
        v = u) →
      e ∈ walk → entryEligible e = true →
      docsWith (applyOps idx (index_folder_ops idxS walk)) e.path =
        if needs_update idxS e then [fileDoc e] else docsWith idx e.path := by
  intro walk
  induction walk with
  | nil => intro idxS idx e _ _ he _; simp at he
  | cons w rest ih =>
    intro idxS idx e hnd hwf he helig
    have hnd2 : (rest.map FsEntry.path).Nodup := (List.nodup_cons.1 hnd).2
    have hwp : w.path ∉ rest.map FsEntry.path := (List.nodup_cons.1 hnd).1
    have hsplit : index_folder_ops idxS (w :: rest)
        = blockFor idxS w ++ index_folder_ops idxS rest := by
      simp [index_folder_ops, List.flatMap_cons]
    rw [hsplit, applyOps_append]
    rcases List.mem_cons.1 he with he1 | he2
    · subst he1
      have havoid : ∀ op ∈ index_folder_ops idxS rest, AvoidsKey e.path op := by
        intro op hop
        rw [index_folder_ops_eq_blocks] at hop
        rcases List.mem_flatMap.1 hop with ⟨b, hb, hopin⟩
        rcases List.mem_filterMap.1 hb with ⟨e2, he2mem, he2eq⟩
        by_cases hc : entryEligible e2 && needs_update idxS e2
        · rw [if_pos hc] at he2eq
          cases he2eq
          have hne : e2.path ≠ e.path := fun hx =>
            hwp (hx ▸ List.mem_map_of_mem FsEntry.path he2mem)
          rcases List.mem_cons.1 hopin with h | h
          · subst h; exact ⟨rfl, hne⟩
          · simp only [mkUpsert, List.mem_singleton] at h
            subst h
            intro hterm
            exact hne ((hasTerm_fileDoc e2 e.path).1 hterm).symm
        · rw [if_neg hc] at he2eq
          cases he2eq
      by_cases hn : needs_update idxS e
      · have hblock : blockFor idxS e = mkUpsert (e.path, fileDoc e) := by
          simp [blockFor, helig, hn, index_single_file_ops, mkUpsert]
        rw [hblock]
        have hset : docsWith (applyOps idx (mkUpsert (e.path, fileDoc e))) e.path
            = [fileDoc e] :=
          docsWith_mkUpsert idx e.path (fileDoc e)
            ((hasTerm_fileDoc e e.path).2 rfl)
        have hinv : ∀ d ∈ applyOps idx (mkUpsert (e.path, fileDoc e)),
            hasTerm d FieldId.path e.path → KeyOnly d e.path := by
          intro d hd hdt
          have hmem : d ∈ docsWith (applyOps idx (mkUpsert (e.path, fileDoc e)))
              e.path := by
            simp [docsWith, List.mem_filter, hd, hdt]
          rw [hset] at hmem
          simp only [List.mem_singleton] at hmem
          subst hmem
          intro v hv
          exact (hasTerm_fileDoc e v).1 hv
        rw [applyOps_avoid _ _ _ havoid hinv, hset, if_pos hn]
      · have hblock : blockFor idxS e = [] := by
          simp [blockFor, hn]
        rw [hblock]
        have hinv : ∀ d ∈ applyOps idx ([] : List WriterOp),
            hasTerm d FieldId.path e.path → KeyOnly d e.path := by
          intro d hd hdt v hv
          exact hwf d hd v e.path hv hdt
        rw [applyOps_avoid _ _ _ havoid hinv, if_neg hn]
        exact rfl
    · have hip : e.path ∈ rest.map FsEntry.path := List.mem_map_of_mem _ he2
      have hnewp : w.path ≠ e.path := fun hx => hwp (hx ▸ hip)
      have hwf2 : ∀ d ∈ applyOps idx (blockFor idxS w), ∀ v u,
          hasTerm d FieldId.path v → hasTerm d FieldId.path u → v = u := by
        intro d hd
        by_cases hc : entryEligible w && needs_update idxS w
        · have hb : blockFor idxS w = mkUpsert (w.path, fileDoc w) := by
            simp [blockFor, hc, index_single_file_ops, mkUpsert]
          rw [hb] at hd
          rcases List.mem_append.1 hd with h | h
          · exact hwf d (List.mem_of_mem_filter h)
          · simp only [List.mem_singleton] at h
            subst h
            intro v u hv hu
            rw [(hasTerm_fileDoc w v).1 hv, (hasTerm_fileDoc w u).1 hu]
        · have hb : blockFor idxS w = [] := by simp [blockFor, hc]
          rw [hb] at hd
          exact hwf d hd
      rw [ih idxS (applyOps idx (blockFor idxS w)) e hnd2 hwf2 he2 helig]
      by_cases hn : needs_update idxS e
      · rw [if_pos hn, if_pos hn]
      · rw [if_neg hn, if_neg hn]
        by_cases hc : entryEligible w && needs_update idxS w
        · have hb : blockFor idxS w = mkUpsert (w.path, fileDoc w) := by
            simp [blockFor, hc, index_single_file_ops, mkUpsert]
          rw [hb]
          apply applyOps_avoid
          · intro op hop
            simp only [mkUpsert, List.mem_cons, List.mem_singleton,
              List.not_mem_nil, or_false] at hop
            rcases hop with h | h
            · subst h; exact ⟨rfl, hnewp⟩
            · subst h
              intro hterm
              exact hnewp ((hasTerm_fileDoc w e.path).1 hterm).symm
          · intro d hd hdt v hv
            exact hwf d hd v e.path hv hdt
        · have hb : blockFor idxS w = [] := by simp [blockFor, hc]
          rw [hb]
          exact rfl

theorem flatMap_eq_nil_of_forall {α β : Type} (f : α → List β) :
    ∀ l : List α, (∀ x ∈ l, f x = []) → l.flatMap f = [] := by
  intro l
  induction l with
  | nil => intro _; rfl
  | cons a rest ih =>
    intro h
    rw [List.flatMap_cons, h a (List.mem_cons_self a rest), List.nil_append]
    exact ih fun x hx => h x (List.mem_cons_of_mem _ hx)

/-- C7.  Re-running `index_folder` on a folder tree unchanged since the
previous run is idempotent: the second run emits no writer operation, so
the index, its document count and every stored mtime are unchanged.  The
hypotheses say the walk is the same (same paths, same mtimes), the walked
paths are distinct, stat succeeds on every eligible file, and documents of
the starting index carry at most one path term (true of every document the
engine writes). -/
theorem index_folder_idempotent :
    ∀ (idx0 : Index) (walk : List FsEntry),
      (∀ d ∈ idx0, ∀ v u, hasTerm d FieldId.path v → hasTerm d FieldId.path u →
        v = u) →
      (walk.map FsEntry.path).Nodup →
      (∀ e ∈ walk, entryEligible e = true → e.mtime.isSome = true) →
      index_folder ⟨true, true, walk⟩ (index_folder_run idx0 walk)
          = Except.ok (index_folder_run idx0 walk) ∧
      (index_folder_run (index_folder_run idx0 walk) walk).length
          = (index_folder_run idx0 walk).length ∧
      ∀ p, get_indexed_mtime (index_folder_run (index_folder_run idx0 walk) walk) p
          = get_indexed_mtime (index_folder_run idx0 walk) p := by
  intro idx0 walk hwf hnd hmt
  have hblocks : ∀ e ∈ walk, blockFor (index_folder_run idx0 walk) e = [] := by
    intro e he
    by_cases helig : entryEligible e
    · suffices hnu : needs_update (index_folder_run idx0 walk) e = false by
        simp [blockFor, hnu]
      obtain ⟨m, hm⟩ := Option.isSome_iff_exists.1 (hmt e he helig)
      have hkey := folder_ops_docsWith walk idx0 idx0 e hnd hwf he helig
      by_cases hn0 : needs_update idx0 e
      · rw [if_pos hn0] at hkey
        have hg : get_indexed_mtime (index_folder_run idx0 walk) e.path
            = some (e.mtime.getD 0) := by
          rw [index_folder_run, get_indexed_mtime_eq, hkey]
          simp [docMtime_fileDoc]
        unfold needs_update
        rw [hg, hm]
        simp
      · rw [if_neg hn0] at hkey
        have hg : get_indexed_mtime (index_folder_run idx0 walk) e.path
            = get_indexed_mtime idx0 e.path := by
          rw [index_folder_run, get_indexed_mtime_eq, hkey,
            ← get_indexed_mtime_eq]
        have heq : needs_update (index_folder_run idx0 walk) e
            = needs_update idx0 e := by
          unfold needs_update
          rw [hg]
        rw [heq]
        cases hb : needs_update idx0 e
        · rfl
        · exact absurd hb hn0
    · simp [blockFor, helig]
  have hops : index_folder_ops (index_folder_run idx0 walk) walk = [] :=
    flatMap_eq_nil_of_forall _ walk hblocks
  have hrun : index_folder_run (index_folder_run idx0 walk) walk
      = index_folder_run idx0 walk := by
    rw [index_folder_run, hops]
    rfl
  refine ⟨?_, by rw [hrun], fun p => by rw [hrun]⟩
  show Except.ok (index_folder_run (index_folder_run idx0 walk) walk)
      = Except.ok (index_folder_run idx0 walk)
  rw [hrun]

/-- C7 witness: a fresh index and a one-file walk. -/
theorem index_folder_idempotent_witness :
    ((∀ d ∈ ([] : Index), ∀ v u, hasTerm d FieldId.path v →
        hasTerm d FieldId.path u → v = u) ∧
      (([⟨"/w/a.txt", "a.txt", some "txt", true, some 5, 3, some "hi"⟩] :
        List FsEntry).map FsEntry.path).Nodup ∧
      (∀ e ∈ ([⟨"/w/a.txt", "a.txt", some "txt", true, some 5, 3, some "hi"⟩] :
        List FsEntry), entryEligible e = true → e.mtime.isSome = true)) ∧
    index_folder
        ⟨true, true, [⟨"/w/a.txt", "a.txt", some "txt", true, some 5, 3, some "hi"⟩]⟩
        (index_folder_run []
          [⟨"/w/a.txt", "a.txt", some "txt", true, some 5, 3, some "hi"⟩])
      = Except.ok (index_folder_run []
          [⟨"/w/a.txt", "a.txt", some "txt", true, some 5, 3, some "hi"⟩]) :=
  ⟨⟨by simp, by simp, by decide⟩,
    (index_folder_idempotent []
      [⟨"/w/a.txt", "a.txt", some "txt", true, some 5, 3, some "hi"⟩]
      (by simp) (by simp) (by decide)).1⟩

/-! ### C2 and C3: the launcher scorer -/

theorem partStep_pos (fc pc : List Char) (s : PartState) :
    (partStep fc pc s).pos = s.pos + 1 := by
  unfold partStep
  by_cases h : charAt fc s.pos = charAt pc s.idx <;> simp [h]

theorem partStep_idx_of_match (fc pc : List Char) (s : PartState)
    (h : charAt fc s.pos = charAt pc s.idx) :
    (partStep fc pc s).idx = s.idx + 1 := by
  simp [partStep, h]

theorem partStep_idx_of_ne (fc pc : List Char) (s : PartState)
    (h : ¬ charAt fc s.pos = charAt pc s.idx) :
    (partStep fc pc s).idx = s.idx := by
  simp [partStep, h]

theorem partStep_startPos (fc pc : List Char) (s : PartState) :
    (partStep fc pc s).startPos = s.startPos ∨
      (partStep fc pc s).startPos = some s.pos := by
  unfold partStep
  by_cases hm : charAt fc s.pos = charAt pc s.idx
  · by_cases hn : s.startPos.isNone <;> simp [hm, hn]
  · simp [hm]

theorem partLoop_startPos_lt (fc pc : List Char) :
    ∀ (fuel : Nat) (s : PartState),
      (∀ q, s.startPos = some q → q < fc.length) →
      ∀ q, (partLoop fc pc fuel s).startPos = some q → q < fc.length := by
  intro fuel
  induction fuel with
  | zero => intro s h q hq; exact h q hq
  | succ fuel ih =>
    intro s h q hq
    by_cases hc : s.pos < fc.length ∧ s.idx < pc.length
    · rw [partLoop, if_pos hc] at hq
      refine ih (partStep fc pc s) ?_ q hq
      intro q2 hq2
      rcases partStep_startPos fc pc s with hs | hs
      · exact h q2 (hs ▸ hq2)
      · rw [hs] at hq2
        cases hq2
        exact hc.1
    · rw [partLoop, if_neg hc] at hq
      exact h q hq

theorem drop_eq_charAt_cons (l : List Char) (n : Nat) (h : n < l.length) :
    l.drop n = charAt l n :: l.drop (n + 1) := by
  rw [charAt, List.getD_eq_getElem l ' ' h]
  exact List.drop_eq_getElem_cons h

/-- The scanning loop agrees with the clean shared-cursor subsequence
match: the loop consumes the whole part exactly when `subseqStep`
succeeds, and then the cursor ends where `subseqStep`'s remainder
starts. -/
theorem partLoop_subseq (fc pc : List Char) :
    ∀ (fuel : Nat) (s : PartState),
      fc.length - s.pos ≤ fuel → s.idx ≤ pc.length →
      (∀ rem, subseqStep (pc.drop s.idx) (fc.drop s.pos) = some rem →
        (partLoop fc pc fuel s).idx = pc.length ∧
          fc.drop (partLoop fc pc fuel s).pos = rem) ∧
      (subseqStep (pc.drop s.idx) (fc.drop s.pos) = none →
        (partLoop fc pc fuel s).idx < pc.length) := by
  intro fuel
  induction fuel with
  | zero =>
    intro s hfuel hidx
    have hpos : fc.length ≤ s.pos := by omega
    have hdrop : fc.drop s.pos = [] := List.drop_eq_nil_of_le hpos
    rw [hdrop]
    constructor
    · intro rem hrem
      cases hpc : pc.drop s.idx with
      | nil =>
        rw [hpc] at hrem
        simp only [subseqStep, Option.some.injEq] at hrem
        have hlen : pc.length ≤ s.idx := by
          have := congrArg List.length hpc
          simp at this
          omega
        have hidx2 : s.idx = pc.length := le_antisymm hidx hlen
        constructor
        · simp [partLoop, hidx2]
        · simp [partLoop, hdrop, ← hrem]
      | cons p ps =>
        rw [hpc] at hrem
        simp [subseqStep] at hrem
    · intro hnone
      cases hpc : pc.drop s.idx with
      | nil =>
        rw [hpc] at hnone
        simp [subseqStep] at hnone
      | cons p ps =>
        have hlt : s.idx < pc.length := by
          have := congrArg List.length hpc
          simp at this
          omega
        simpa [partLoop] using hlt
  | succ fuel ih =>
    intro s hfuel hidx
    by_cases hc : s.pos < fc.length ∧ s.idx < pc.length
    · obtain ⟨hp, hi⟩ := hc
      have hfc : fc.drop s.pos = charAt fc s.pos :: fc.drop (s.pos + 1) :=
        drop_eq_charAt_cons fc s.pos hp
      have hpcd : pc.drop s.idx = charAt pc s.idx :: pc.drop (s.idx + 1) :=
        drop_eq_charAt_cons pc s.idx hi
      rw [partLoop, if_pos ⟨hp, hi⟩, hfc, hpcd]
      by_cases hm : charAt fc s.pos = charAt pc s.idx
      · have hss : subseqStep (charAt pc s.idx :: pc.drop (s.idx + 1))
            (charAt fc s.pos :: fc.drop (s.pos + 1))
            = subseqStep (pc.drop (s.idx + 1)) (fc.drop (s.pos + 1)) := by
          simp [subseqStep, hm]
        rw [hss]
        have ha := ih (partStep fc pc s)
          (by rw [partStep_pos]; omega)
          (by rw [partStep_idx_of_match fc pc s hm]; omega)
        rw [partStep_idx_of_match fc pc s hm, partStep_pos] at ha
        exact ha
      · have hss : subseqStep (charAt pc s.idx :: pc.drop (s.idx + 1))
            (charAt fc s.pos :: fc.drop (s.pos + 1))
            = subseqStep (charAt pc s.idx :: pc.drop (s.idx + 1))
                (fc.drop (s.pos + 1)) := by
          simp only [subseqStep]
          rw [if_neg hm]
        rw [hss, ← drop_eq_charAt_cons pc s.idx hi]
        have ha := ih (partStep fc pc s)
          (by rw [partStep_pos]; omega)
          (by rw [partStep_idx_of_ne fc pc s hm]; omega)
        rw [partStep_idx_of_ne fc pc s hm, partStep_pos] at ha
        exact ha
    · rw [partLoop, if_neg hc]
      rcases Nat.lt_or_ge s.idx pc.length with hilt | hige
      · have hpos : fc.length ≤ s.pos := by omega
        have hdrop : fc.drop s.pos = [] := List.drop_eq_nil_of_le hpos
        have hpcd : pc.drop s.idx = charAt pc s.idx :: pc.drop (s.idx + 1) :=
          drop_eq_charAt_cons pc s.idx hilt
        rw [hdrop, hpcd]
        constructor
        · intro rem hrem
          simp [subseqStep] at hrem
        · intro _
          exact hilt
      · have hidx2 : s.idx = pc.length := le_antisymm hidx hige
        have hpcd : pc.drop s.idx = [] := List.drop_eq_nil_of_le hige
        rw [hpcd]
        constructor
        · intro rem hrem
          simp only [subseqStep, Option.some.injEq] at hrem
          exact ⟨hidx2, hrem⟩
        · intro hnone
          simp [subseqStep] at hnone

theorem scorePart_subseq (fc : List Char) (pos0 : Nat) (total : ℚ)
    (part : List Char) :
    (∀ rem, subseqStep part (fc.drop pos0) = some rem →
      ∃ pos2 total2, scorePart fc pos0 total part = some (pos2, total2) ∧
        fc.drop pos2 = rem) ∧
    (subseqStep part (fc.drop pos0) = none →
      scorePart fc pos0 total part = none) := by
  by_cases hpe : part.isEmpty
  · have hpart : part = [] := List.isEmpty_iff.1 hpe
    subst hpart
    constructor
    · intro rem hrem
      simp only [subseqStep, Option.some.injEq] at hrem
      exact ⟨pos0, total, by simp [scorePart], hrem⟩
    · intro hnone
      simp [subseqStep] at hnone
  · have hkey := partLoop_subseq fc part fc.length
      { pos := pos0, idx := 0, startPos := none, cur := 0, maxc := 0, nb := 0 }
      (Nat.sub_le _ _) (Nat.zero_le _)
    simp only [List.drop_zero] at hkey
    constructor
    · intro rem hrem
      obtain ⟨hidx, hdrop⟩ := hkey.1 rem hrem
      set s := partLoop fc part fc.length
        { pos := pos0, idx := 0, startPos := none, cur := 0, maxc := 0, nb := 0 }
        with hsdef
      refine ⟨s.pos,
        total + (s.nb : ℚ) * 10 +
          (match s.startPos with
           | some q => 10 * (((fc.length : ℚ) - (q : ℚ)) / (fc.length : ℚ))
           | none => 0) + (s.maxc : ℚ) * 2, ?_, hdrop⟩
      rw [scorePart, if_neg hpe]
      simp only [← hsdef, hidx, lt_irrefl, if_false, ite_false]
    · intro hnone
      have hlt := hkey.2 hnone
      rw [scorePart, if_neg hpe]
      simp only [if_pos hlt]

theorem partsLoop_seqMatch (fc : List Char) :
    ∀ (parts : List (List Char)) (pos : Nat) (total : ℚ),
      (partsLoop fc parts pos total = none ↔
        seqMatch parts (fc.drop pos) = false) := by
  intro parts
  induction parts with
  | nil =>
    intro pos total
    simp [partsLoop, seqMatch]
  | cons p rest ih =>
    intro pos total
    cases hss : subseqStep p (fc.drop pos) with
    | none =>
      have hsp := (scorePart_subseq fc pos total p).2 hss
      simp [partsLoop, seqMatch, hsp, hss]
    | some rem =>
      obtain ⟨pos2, total2, hsp, hdrop⟩ :=
        (scorePart_subseq fc pos total p).1 rem hss
      rw [partsLoop, hsp]
      rw [seqMatch, hss, ← hdrop]
      exact ih pos2 total2

/-- C2 counterexample.  The parts list `["b", "a"]` fails on the file name
"ab" while its permutation `["a", "b"]` succeeds, so `None` is not
preserved under reordering of the parts. -/
theorem launcher_none_perm_cex :
    List.Perm ["b", "a"] ["a", "b"] ∧
    calculate_launcher_score ["b", "a"] "ab" = none ∧
    calculate_launcher_score ["a", "b"] "ab" = some (25, 2) := by
  refine ⟨by decide, by decide, ?_⟩
  have h1 : partLoop ['a', 'b'] ['a'] 2 ⟨0, 0, none, 0, 0, 0⟩
      = ⟨1, 1, some 0, 0, 0, 1⟩ := by decide
  have h2 : partLoop ['a', 'b'] ['b'] 2 ⟨1, 0, none, 0, 0, 0⟩
      = ⟨2, 1, some 1, 0, 0, 0⟩ := by decide
  have he : rustExtension ['a', 'b'] = none := by decide
  have hb : "ab".utf8ByteSize = 2 := rfl
  simp [calculate_launcher_score, partsLoop, scorePart, wholeQueryBonus,
    extBonus, h1, h2, he, hb, strContainsSub]
  norm_num

/-- C2 amended.  The launcher scorer matches the parts in input order
through one shared forward cursor, so `None` is order-sensitive:
`calculate_launcher_score parts name = None` exactly when `parts` is empty
or the in-order shared-cursor subsequence match fails; a reordering of the
parts can turn `None` into `Some`. -/
theorem launcher_none_iff :
    ∀ (parts : List String) (file_name : String),
      calculate_launcher_score parts file_name = none ↔
        (parts = [] ∨
          seqMatch (parts.map String.toList) file_name.toList = false) := by
  intro parts name
  cases parts with
  | nil => simp [calculate_launcher_score]
  | cons p rest =>
    have hlet : calculate_launcher_score (p :: rest) name
        = match partsLoop name.toList (List.map String.toList (p :: rest)) 0
            (wholeQueryBonus (List.map String.toList (p :: rest)) name.toList) with
          | none => none
          | some (_, total) =>
            some (total + extBonus name.toList, name.utf8ByteSize) := by
      rw [calculate_launcher_score,
        if_neg (by simp : ¬ (p :: rest).isEmpty = true)]
    rw [hlet]
    have hkey := partsLoop_seqMatch name.toList
      (List.map String.toList (p :: rest)) 0
      (wholeQueryBonus (List.map String.toList (p :: rest)) name.toList)
    rw [List.drop_zero] at hkey
    constructor
    · intro h
      cases hpl : partsLoop name.toList (List.map String.toList (p :: rest)) 0
          (wholeQueryBonus (List.map String.toList (p :: rest)) name.toList) with
      | none => exact Or.inr (hkey.1 hpl)
      | some pr =>
        obtain ⟨pos2, total2⟩ := pr
        rw [hpl] at h
        simp at h
    · intro h
      rcases h with h | h
      · exact absurd h (List.cons_ne_nil p rest)
      · have hn : partsLoop name.toList (List.map String.toList (p :: rest)) 0
            (wholeQueryBonus (List.map String.toList (p :: rest)) name.toList)
            = none := hkey.2 h
        rw [hn]

/-! ### C3: the launcher score lower bound and its failure at zero -/

theorem wholeQueryBonus_nonneg (parts : List (List Char)) (fc : List Char) :
    0 ≤ wholeQueryBonus parts fc := by
  unfold wholeQueryBonus
  match parts with
  | [] => norm_num
  | [p] =>
    by_cases h1 : p.isPrefixOf fc
    · simp [h1]
    · by_cases h2 : strContainsSub fc p <;> simp [h1, h2]
  | p :: q :: rest => norm_num

theorem extBonus_ge (name : List Char) : (-50 : ℚ) ≤ extBonus name := by
  unfold extBonus
  cases rustExtension name with
  | none => norm_num
  | some e =>
    simp only []
    split
    · norm_num
    · split
      · norm_num
      · split <;> norm_num

theorem scorePart_mono (fc : List Char) (pos0 : Nat) (total : ℚ)
    (part : List Char) (pos2 : Nat) (total2 : ℚ)
    (h : scorePart fc pos0 total part = some (pos2, total2)) :
    total ≤ total2 := by
  by_cases hpe : part.isEmpty
  · rw [scorePart, if_pos hpe] at h
    simp only [Option.some.injEq, Prod.mk.injEq] at h
    rw [← h.2]
  · rw [scorePart, if_neg hpe] at h
    set s := partLoop fc part fc.length
      { pos := pos0, idx := 0, startPos := none, cur := 0, maxc := 0, nb := 0 }
      with hs
    by_cases hlt : s.idx < part.length
    · rw [if_pos hlt] at h
      cases h
    · rw [if_neg hlt] at h
      simp only [Option.some.injEq, Prod.mk.injEq] at h
      have hposBonus : 0 ≤ (match s.startPos with
          | some p => 10 * (((fc.length : ℚ) - (p : ℚ)) / (fc.length : ℚ))
          | none => (0 : ℚ)) := by
        cases hsp : s.startPos with
        | none => exact le_refl 0
        | some q =>
          have hqlt : q < fc.length := by
            apply partLoop_startPos_lt fc part fc.length
              { pos := pos0, idx := 0, startPos := none, cur := 0, maxc := 0,
                nb := 0 }
              (by intro q2 hq2; cases hq2)
            rw [← hs, hsp]
          have hq : (q : ℚ) < (fc.length : ℚ) := by exact_mod_cast hqlt
          have hl : (0 : ℚ) < (fc.length : ℚ) := by
            have h0 : 0 < fc.length := by omega
            exact_mod_cast h0
          show (0 : ℚ) ≤ 10 * (((fc.length : ℚ) - (q : ℚ)) / (fc.length : ℚ))
          have hnn : (0 : ℚ) ≤ (fc.length : ℚ) - (q : ℚ) := by linarith
          exact mul_nonneg (by norm_num) (div_nonneg hnn (le_of_lt hl))
      have hnb : (0 : ℚ) ≤ (s.nb : ℚ) * 10 := by positivity
      have hmx : (0 : ℚ) ≤ (s.maxc : ℚ) * 2 := by positivity
      rw [← h.2]
      linarith

theorem partsLoop_mono (fc : List Char) :
    ∀ (parts : List (List Char)) (pos : Nat) (total : ℚ) (pos2 : Nat)
      (total2 : ℚ),
      partsLoop fc parts pos total = some (pos2, total2) → total ≤ total2 := by
  intro parts
  induction parts with
  | nil =>
    intro pos total pos2 total2 h
    simp only [partsLoop, Option.some.injEq, Prod.mk.injEq] at h
    rw [← h.2]
  | cons p rest ih =>
    intro pos total pos2 total2 h
    rw [partsLoop] at h
    cases hsp : scorePart fc pos total p with
    | none => rw [hsp] at h; cases h
    | some pr =>
      rw [hsp] at h
      have h1 := scorePart_mono fc pos total p pr.1 pr.2 (by rw [hsp])
      have h2 := ih pr.1 pr.2 pos2 total2 h
      linarith

/-- C3 counterexample.  `["ab"]` matches "xxxxaxb.ts" (a `.ts` name whose
letters a and b only occur separated), the extension penalty is `-50`, and
the total score is `-44 + 100 / sqrt 10 < 0`: a matched score can be
negative. -/
theorem launcher_score_negative_cex :
    calculate_launcher_score ["ab"] "xxxxaxb.ts" = some (-44, 10) ∧
    scoreValue (-44, 10) < 0 := by
  constructor
  · have h1 : partLoop ['x', 'x', 'x', 'x', 'a', 'x', 'b', '.', 't', 's']
        ['a', 'b'] 10 ⟨0, 0, none, 0, 0, 0⟩ = ⟨7, 2, some 4, 0, 0, 0⟩ := by
      decide
    have hc : strContainsSub ['x', 'x', 'x', 'x', 'a', 'x', 'b', '.', 't', 's']
        ['a', 'b'] = false := by decide
    have hp : List.isPrefixOf ['a', 'b']
        ['x', 'x', 'x', 'x', 'a', 'x', 'b', '.', 't', 's'] = false := by decide
    have he : rustExtension ['x', 'x', 'x', 'x', 'a', 'x', 'b', '.', 't', 's']
        = some ['t', 's'] := by decide
    have hb : "xxxxaxb.ts".utf8ByteSize = 10 := rfl
    simp [calculate_launcher_score, partsLoop, scorePart, wholeQueryBonus,
      extBonus, h1, hc, hp, he, hb]
    norm_num
  · show ((-44 : ℚ) : ℝ) + 100 / Real.sqrt ((10 : Nat) : ℝ) < 0
    have h10 : ((10 : Nat) : ℝ) = (10 : ℝ) := by norm_num
    rw [h10]
    have hpos : (0 : ℝ) < Real.sqrt 10 := Real.sqrt_pos.2 (by norm_num)
    have hgt : (100 / 44 : ℝ) < Real.sqrt 10 := by
      rw [show (100 / 44 : ℝ) = 25 / 11 by norm_num]
      have := (Real.lt_sqrt (by norm_num : (0 : ℝ) ≤ 25 / 11)).2
        (by norm_num : ((25 / 11 : ℝ)) ^ 2 < 10)
      exact this
    have hlt : (100 : ℝ) / Real.sqrt 10 < 44 := by
      rw [div_lt_iff₀ hpos]
      nlinarith
    have hc : ((-44 : ℚ) : ℝ) = (-44 : ℝ) := by norm_num
    rw [hc]
    linarith

/-- C3 amended.  A matched launcher score need not be nonnegative, but it
is bounded below by the worst extension penalty: if
`calculate_launcher_score parts name = Some s` then `s ≥ -50`. -/
theorem launcher_score_ge_neg50 :
    ∀ (parts : List String) (file_name : String) (r : ℚ × Nat),
      calculate_launcher_score parts file_name = some r →
        (-50 : ℝ) ≤ scoreValue r := by
  intro parts name r h
  have hq : (-50 : ℚ) ≤ r.1 := by
    cases parts with
    | nil => simp [calculate_launcher_score] at h
    | cons p rest =>
      have hlet : calculate_launcher_score (p :: rest) name
          = match partsLoop name.toList (List.map String.toList (p :: rest)) 0
              (wholeQueryBonus (List.map String.toList (p :: rest)) name.toList) with
            | none => none
            | some (_, total) =>
              some (total + extBonus name.toList, name.utf8ByteSize) := by
        rw [calculate_launcher_score,
          if_neg (by simp : ¬ (p :: rest).isEmpty = true)]
      rw [hlet] at h
      cases hpl : partsLoop name.toList (List.map String.toList (p :: rest)) 0
          (wholeQueryBonus (List.map String.toList (p :: rest)) name.toList) with
      | none =>
        rw [hpl] at h
        simp at h
      | some pr =>
        obtain ⟨pos2, total2⟩ := pr
        rw [hpl] at h
        simp only [Option.some.injEq] at h
        have h1 := partsLoop_mono name.toList (List.map String.toList (p :: rest)) 0
          (wholeQueryBonus (List.map String.toList (p :: rest)) name.toList)
          pos2 total2 hpl
        have h2 := wholeQueryBonus_nonneg (List.map String.toList (p :: rest))
          name.toList
        have h3 := extBonus_ge name.toList
        have hr1 : r.1 = total2 + extBonus name.toList := by
          rw [← h]
        rw [hr1]
        linarith
  have hsq : (0 : ℝ) ≤ 100 / Real.sqrt ((r.2 : Nat) : ℝ) :=
    div_nonneg (by norm_num) (Real.sqrt_nonneg _)
  have hqr : ((-50 : ℚ) : ℝ) ≤ ((r.1 : ℚ) : ℝ) := by exact_mod_cast hq
  have hc : ((-50 : ℚ) : ℝ) = (-50 : ℝ) := by norm_num
  rw [hc] at hqr
  unfold scoreValue
  linarith

/-- C3 amended witness: the single-part query "a" on the file name "a". -/
theorem launcher_score_ge_neg50_witness :
    calculate_launcher_score ["a"] "a" = some (1020, 1) ∧
      (-50 : ℝ) ≤ scoreValue (1020, 1) := by
  have h : calculate_launcher_score ["a"] "a" = some (1020, 1) := by
    have h1 : partLoop ['a'] ['a'] 1 ⟨0, 0, none, 0, 0, 0⟩
        = ⟨1, 1, some 0, 0, 0, 1⟩ := by decide
    have hp : List.isPrefixOf ['a'] ['a'] = true := by decide
    have he : rustExtension ['a'] = none := by decide
    have hb : "a".utf8ByteSize = 1 := rfl
    simp [calculate_launcher_score, partsLoop, scorePart, wholeQueryBonus,
      extBonus, h1, hp, he, hb]
    norm_num
  exact ⟨h, launcher_score_ge_neg50 ["a"] "a" (1020, 1) h⟩

end WorkSentry
